import Mathlib

/-!
# Verification of the Othello game-server core

Shallow embedding of the board logic, match state machine, AI move selection
and rating-ledger updates of the Othello server (src/server.js and the two
server variants in src/unnamed), together with proofs of the specified
properties.

A board cell holds 0 (empty), 1 (Black / side A) or 2 (White / side B).
Boards are modelled as total functions from integer coordinates to cell
values; every operation of the source guards its reads with the same
bounds checks as the JavaScript, so values outside the 8 by 8 board are
never consulted by the embedded operations.
-/

namespace Othello

/-- A board: cell value at integer coordinates (row, column). -/
abbrev Board := Int → Int → Nat

/-- In bounds check, mirroring the repeated tests of the form
nr greater-equal 0 and nr less than 8 (likewise for the column). -/
def inB (r c : Int) : Prop := 0 ≤ r ∧ r < 8 ∧ 0 ≤ c ∧ c < 8

instance (r c : Int) : Decidable (inB r c) :=
  inferInstanceAs (Decidable (0 ≤ r ∧ r < 8 ∧ 0 ≤ c ∧ c < 8))

/-- Write one cell of the board (the assignment board[r][c] = v). -/
def setCell (b : Board) (r c : Int) (v : Nat) : Board :=
  fun x y => if x = r ∧ y = c then v else b x y

/-- The opposing side: player === 1 ? 2 : 1. -/
def opp (p : Nat) : Nat := if p = 1 then 2 else 1

/-- The 8 scan directions, in the iteration order used by every variant
(dr from -1 to 1, dc from -1 to 1, skipping (0,0)). -/
def dirs : List (Int × Int) :=
  [(-1,-1), (-1,0), (-1,1), (0,-1), (0,1), (1,-1), (1,0), (1,1)]

/-- The while loop of server.js isValidMove / applyMove: starting at (x, y),
walk in direction (dr, dc) while the cell is on the board and holds the
opponent value o, collecting the run; return the collected run together with
the first coordinates that stopped the walk.  The fuel argument bounds the
number of iterations; fuel 8 is enough to reach the edge of the board from
any on-board starting cell in any of the 8 directions. -/
def scanRay (b : Board) (o : Nat) (dr dc : Int) : Nat → Int → Int → List (Int × Int) × Int × Int
  | 0, x, y => ([], x, y)
  | fuel+1, x, y =>
    if inB x y ∧ b x y = o then
      let rest := scanRay b o dr dc fuel (x + dr) (y + dc)
      ((x, y) :: rest.1, rest.2)
    else ([], x, y)

/-! ## server.js GameRoom board operations -/

/-- One direction of server.js GameRoom.isValidMove: walk the opponent run
starting next to (r, c); the move is validated by this ray when the walk
stopped on the board, on a disc of the mover, with a non-empty run
(path.length greater than 0). -/
def rayValidB (b : Board) (r c : Int) (p : Nat) (d : Int × Int) : Bool :=
  let s := scanRay b (opp p) d.1 d.2 8 (r + d.1) (c + d.2)
  decide (inB s.2.1 s.2.2) && decide (b s.2.1 s.2.2 = p) && decide (s.1 ≠ [])

/-- server.js GameRoom.isValidMove: the cell must be empty and some
direction must validate the move. -/
def isValidMove (b : Board) (r c : Int) (p : Nat) : Bool :=
  decide (b r c = 0) && dirs.any (rayValidB b r c p)

/-- server.js GameRoom.calculateValidMoves: scan the 64 cells in row-major
order and keep the empty cells for which isValidMove holds. -/
def calculateValidMoves (b : Board) (p : Nat) : List (Int × Int) :=
  (List.range 8).flatMap fun (r : Nat) =>
    (List.range 8).filterMap fun (c : Nat) =>
      if b (r : Int) (c : Int) = 0 ∧ isValidMove b (r : Int) (c : Int) p then
        some ((r : Int), (c : Int))
      else none

/-- The ray condition of the legality specification, as a predicate: along
direction d from (r, c) there is a non-empty contiguous run of n opposing
discs immediately adjacent, terminated by a disc of the moving side before
running off the board or reaching an empty cell. -/
def FlankAt (b : Board) (p : Nat) (r c : Int) (d : Int × Int) (n : Nat) : Prop :=
  1 ≤ n ∧
  (∀ i : Nat, 1 ≤ i → i ≤ n →
    inB (r + (i : Int) * d.1) (c + (i : Int) * d.2) ∧
    b (r + (i : Int) * d.1) (c + (i : Int) * d.2) = opp p) ∧
  inB (r + ((n : Int) + 1) * d.1) (c + ((n : Int) + 1) * d.2) ∧
  b (r + ((n : Int) + 1) * d.1) (c + ((n : Int) + 1) * d.2) = p

/-- Flip every cell of the list to the mover (the path.forEach of
server.js GameRoom.applyMove, and the toFlip.forEach of the other
variant). -/
def flipRun (b : Board) (p : Nat) (cells : List (Int × Int)) : Board :=
  cells.foldl (fun bb q => setCell bb q.1 q.2 p) b

/-- The direction loop of server.js GameRoom.applyMove: for each direction
in turn, re-scan the CURRENT (already partially flipped) board, and flip the
collected run in place when the ray is terminated by the mover.  Returns the
final board together with the list of flipped cells (the source counts them;
the count is the length of this list). -/
def applyDirs (p : Nat) (r c : Int) : List (Int × Int) → Board → Board × List (Int × Int)
  | [], b => (b, [])
  | d :: ds, b =>
    let s := scanRay b (opp p) d.1 d.2 8 (r + d.1) (c + d.2)
    if inB s.2.1 s.2.2 ∧ b s.2.1 s.2.2 = p ∧ s.1 ≠ [] then
      let rest := applyDirs p r c ds (flipRun b p s.1)
      (rest.1, s.1 ++ rest.2)
    else
      applyDirs p r c ds b

/-- server.js GameRoom.applyMove: place the disc, then process the 8
directions in order, flipping in place. -/
def applyMove (b : Board) (r c : Int) (p : Nat) : Board × List (Int × Int) :=
  applyDirs p r c dirs (setCell b r c p)

/-- The flips of one ray evaluated against one fixed board snapshot. -/
def rayFlips (b : Board) (r c : Int) (p : Nat) (d : Int × Int) : List (Int × Int) :=
  let s := scanRay b (opp p) d.1 d.2 8 (r + d.1) (c + d.2)
  if inB s.2.1 s.2.2 ∧ b s.2.1 s.2.2 = p ∧ s.1 ≠ [] then s.1 else []

/-- Modelled from the spec sentence "All 8 rays are evaluated against the
same pre-move board snapshot; flips from different rays do not interact":
place the disc, evaluate every ray against that one snapshot, then apply
all the flips at once. -/
def applyMoveSpec (b : Board) (r c : Int) (p : Nat) : Board × List (Int × Int) :=
  let b1 := setCell b r c p
  let flips := dirs.flatMap (rayFlips b1 r c p)
  (flipRun b1 p flips, flips)

/-- All 64 on-board coordinates, row major (the double loop of
updateScores). -/
def allCells : List (Int × Int) :=
  (List.range 8).flatMap fun (r : Nat) =>
    (List.range 8).map fun (c : Nat) => ((r : Int), (c : Int))

/-- Number of on-board cells holding value v (one branch of the counting
loop of server.js GameRoom.updateScores). -/
def countColor (b : Board) (v : Nat) : Nat :=
  allCells.countP fun q => decide (b q.1 q.2 = v)

/-- server.js GameRoom.updateScores: (black count, white count). -/
def updateScores (b : Board) : Nat × Nat := (countColor b 1, countColor b 2)

/-- server.js GameRoom.determineWinner on the two scores: 1 if black leads,
2 if white leads, 0 on a draw. -/
def determineWinner (s1 s2 : Nat) : Nat :=
  if s2 < s1 then 1 else if s1 < s2 then 2 else 0

/-- The room state of server.js GameRoom that the makeMove handler touches
(timestamps and chat are independent of the claims and omitted). -/
structure SRoom where
  board : Board
  currentPlayer : Nat
  gameStarted : Bool
  gameOver : Bool
  winner : Option Nat
  scores1 : Nat
  scores2 : Nat
  moveHistory : List (Nat × Int × Int × Nat)

/-- server.js GameRoom.checkGameEnd: the game is over when the board is
full or neither side has a legal move; in that case the winner is fixed
from the scores. -/
def checkGameEnd (room : SRoom) : SRoom :=
  let m1 := calculateValidMoves room.board room.currentPlayer
  let m2 := calculateValidMoves room.board (opp room.currentPlayer)
  if room.scores1 + room.scores2 = 64 ∨ (m1 = [] ∧ m2 = []) then
    { room with gameOver := true,
                winner := some (determineWinner room.scores1 room.scores2) }
  else room

/-- The makeMove socket handler of server.js, for a submitting player whose
colour is pc: reject when the game is not running, when it is not the
turn of the submitter, or when the move is invalid; otherwise apply the move,
update scores and history, and resolve the turn (switch, silent pass, or
game end). -/
def serverMakeMove (room : SRoom) (pc : Nat) (row col : Int) : SRoom × Option String :=
  if ¬room.gameStarted ∨ room.gameOver then
    (room, some "game not started or already over")
  else if pc ≠ room.currentPlayer then
    (room, some "not your turn")
  else if isValidMove room.board row col room.currentPlayer then
    let res := applyMove room.board row col room.currentPlayer
    let s := updateScores res.1
    let room1 : SRoom :=
      { room with board := res.1, scores1 := s.1, scores2 := s.2,
                  moveHistory :=
                    room.moveHistory ++ [(room.currentPlayer, row, col, res.2.length)] }
    let next := opp room.currentPlayer
    if calculateValidMoves res.1 next ≠ [] then
      ({ room1 with currentPlayer := next }, none)
    else if calculateValidMoves res.1 room.currentPlayer ≠ [] then
      (room1, none)
    else
      (checkGameEnd room1, none)
  else
    (room, some "invalid move")

/-! ## The enhanced server variant (src/unnamed/part_001) -/

namespace V1

open Othello

/-- The while loop of part_001 GameRoom.isValidDirection: walk from (x, y);
an empty cell or the edge of the board refutes the direction, a disc of the
mover validates it when at least one intermediate disc was passed, anything
else counts as an opposing disc and the walk continues. -/
def dirCheck (b : Board) (p : Nat) (dx dy : Int) : Nat → Int → Int → Bool → Bool
  | 0, _, _, _ => false
  | fuel+1, x, y, hasOpponent =>
    if inB x y then
      if b x y = 0 then false
      else if b x y = p then hasOpponent
      else dirCheck b p dx dy fuel (x + dx) (y + dy) true
    else false

/-- part_001 GameRoom.isValidDirection. -/
def isValidDirection (b : Board) (row col dx dy : Int) (p : Nat) : Bool :=
  dirCheck b p dx dy 8 (row + dx) (col + dy) false

/-- part_001 GameRoom.getValidMoves (also AIPlayer.getValidMovesForBoard,
which runs the identical loops on an explicit board argument). -/
def getValidMoves (b : Board) (p : Nat) : List (Int × Int) :=
  (List.range 8).flatMap fun (row : Nat) =>
    (List.range 8).filterMap fun (col : Nat) =>
      if b (row : Int) (col : Int) = 0 ∧
          dirs.any (fun d => isValidDirection b (row : Int) (col : Int) d.1 d.2 p) then
        some ((row : Int), (col : Int))
      else none

/-- One direction of part_001 GameRoom.flipPieces: collect the candidate
run; commit it when a disc of the mover is reached, discard it on an empty
cell or at the edge of the board. -/
def collectRun (b : Board) (p : Nat) (dx dy : Int) : Nat → Int → Int → List (Int × Int) → List (Int × Int)
  | 0, _, _, _ => []
  | fuel+1, x, y, acc =>
    if inB x y then
      if b x y = 0 then []
      else if b x y = p then acc
      else collectRun b p dx dy fuel (x + dx) (y + dy) (acc ++ [(x, y)])
    else []

/-- part_001 GameRoom.flipPieces evaluated on the board b (which already
holds the just-placed disc): the list of cells to flip, over all 8
directions; the caller then writes the colour of the mover to each of them. -/
def flipPieces (b : Board) (row col : Int) (p : Nat) : List (Int × Int) :=
  dirs.flatMap fun d => collectRun b p d.1 d.2 8 (row + d.1) (col + d.2) []

/-- part_001 GameRoom.getScores. -/
def getScores (b : Board) : Nat × Nat := (countColor b 1, countColor b 2)

/-- Match result strings handed to the stats / leaderboard updaters. -/
inductive GRes
  | win
  | loss
  | draw
  deriving DecidableEq, Repr

/-- One call into the rating / statistics ledger boundary
(updatePlayerStats or updateLeaderboard of part_001). -/
inductive LedgerCall
  | stats (playerName : String) (result : GRes) (own oppScore : Nat)
  | rating (playerName : String) (result : GRes)
  deriving DecidableEq, Repr

/-- A player entry of part_001 GameRoom.players. -/
structure APlayer where
  id : Nat
  name : String
  playerNumber : Nat
  connected : Bool
  isAI : Bool
  deriving DecidableEq, Repr

/-- One stored move of the part_001 moveHistory (the timestamp field is
wall-clock data and is omitted). -/
structure AMoveRec where
  player : Nat
  row : Int
  col : Int
  flippedPieces : List (Int × Int)
  deriving DecidableEq, Repr

/-- The room state of part_001 GameRoom relevant to moves, game end and the
ledger; the ledger field accumulates the calls issued to the external
rating / statistics boundary. -/
structure ARoom where
  board : Board
  currentPlayer : Nat
  players : List APlayer
  gameStarted : Bool
  gameOver : Bool
  winner : Option Nat
  moveHistory : List AMoveRec
  ledger : List LedgerCall

/-- The moveHistory.push of part_001 GameRoom.makeMove (and of the other
two variants): a plain append. -/
def pushMoveHistory (h : List AMoveRec) (e : AMoveRec) : List AMoveRec := h ++ [e]

/-- part_001 GameRoom.endGame: mark the game over, fix the winner from the
scores, and for every non-AI player report the result once to the stats
updater and once to the leaderboard updater. -/
def endGame (room : ARoom) : ARoom :=
  let s := getScores room.board
  let w : Nat := if s.2 < s.1 then 1 else if s.1 < s.2 then 2 else 0
  { room with
    gameOver := true, winner := some w,
    ledger := room.players.foldl (fun acc pl =>
      if pl.isAI then acc
      else
        let res : GRes :=
          if w = pl.playerNumber then .win else if w ≠ 0 then .loss else .draw
        let own := if pl.playerNumber = 1 then s.1 else s.2
        let other := if pl.playerNumber = 1 then s.2 else s.1
        acc ++ [LedgerCall.stats pl.name res own other, LedgerCall.rating pl.name res])
      room.ledger }

/-- part_001 GameRoom.switchPlayer: hand the turn to the other side when it
has a move; otherwise keep it, ending the game when the mover is also out
of moves. -/
def switchPlayer (room : ARoom) : ARoom :=
  let next := opp room.currentPlayer
  if getValidMoves room.board next ≠ [] then
    { room with currentPlayer := next }
  else if getValidMoves room.board room.currentPlayer = [] then
    endGame room
  else room

/-- part_001 GameRoom.checkGameOver: end the game when the board is full or
neither side has a move. -/
def checkGameOver (room : ARoom) : ARoom :=
  let s := getScores room.board
  if s.1 + s.2 = 64 then endGame room
  else if getValidMoves room.board 1 = [] ∧ getValidMoves room.board 2 = [] then
    endGame room
  else room

/-- part_001 GameRoom.makeMove for a submitting socket id: the four
rejection guards (each leaving the room untouched), then the mutation
sequence place, flip, record, switchPlayer, checkGameOver.  The AI
follow-up move is scheduled asynchronously by the caller and is not part of
this step. -/
def makeMove (room : ARoom) (row col : Int) (playerId : Nat) : ARoom × Option String :=
  if room.gameOver ∨ ¬room.gameStarted then
    (room, some "Game not active")
  else
    match room.players.find? (fun pl => pl.id = playerId) with
    | none => (room, some "Not your turn")
    | some pl =>
      if pl.playerNumber ≠ room.currentPlayer then
        (room, some "Not your turn")
      else if room.board row col ≠ 0 then
        (room, some "Cell occupied")
      else if (row, col) ∉ getValidMoves room.board room.currentPlayer then
        (room, some "Invalid move")
      else
        let b1 := setCell room.board row col room.currentPlayer
        let flips := flipPieces b1 row col room.currentPlayer
        let b2 := flipRun b1 room.currentPlayer flips
        let room1 : ARoom :=
          { room with board := b2,
                      moveHistory := pushMoveHistory room.moveHistory
                        ⟨room.currentPlayer, row, col, flips⟩ }
        (checkGameOver (switchPlayer room1), none)

end V1

/-! ## part_001 AIPlayer (expert tier) -/

namespace AI

open Othello

/-- part_001 AIPlayer.isNextToCorner: within Chebyshev distance 1 of one of
the four corners, the corner itself excluded.  The board is not consulted. -/
def isNextToCorner (row col : Int) : Bool :=
  [((0:Int),(0:Int)), (0,7), (7,0), (7,7)].any fun q =>
    decide (|row - q.1| ≤ 1 ∧ |col - q.2| ≤ 1 ∧ ¬(row = q.1 ∧ col = q.2))

/-- One direction of part_001 AIPlayer.countFlips: count the discs that
would be bracketed in this direction (an empty cell or the edge yields 0). -/
def countFlipsDir (b : Board) (p : Nat) (dx dy : Int) : Nat → Int → Int → Nat → Nat
  | 0, _, _, _ => 0
  | fuel+1, x, y, flips =>
    if inB x y then
      if b x y = 0 then 0
      else if b x y = p then flips
      else countFlipsDir b p dx dy fuel (x + dx) (y + dy) (flips + 1)
    else 0

/-- part_001 AIPlayer.countFlips. -/
def countFlips (b : Board) (row col : Int) (p : Nat) : Nat :=
  (dirs.map fun d => countFlipsDir b p d.1 d.2 8 (row + d.1) (col + d.2) 0).sum

/-- part_001 AIPlayer.evaluateMobility: place the disc (without flipping
anything) and return the negated number of legal moves the opponent would
then have. -/
def evaluateMobility (b : Board) (m : Int × Int) (p : Nat) : Int :=
  -((V1.getValidMoves (setCell b m.1 m.2 p) (opp p)).length : Int)

/-- The per-candidate score of part_001 AIPlayer.makeExpertMove: corner
bonus 100, else edge bonus 20 when not next to a corner; a flat penalty 50
for any cell next to a corner (the board content of the corner is not
checked); twice the immediate flip count; plus the mobility term. -/
def expertScore (b : Board) (p : Nat) (m : Int × Int) : Int :=
  (if (m.1 = 0 ∨ m.1 = 7) ∧ (m.2 = 0 ∨ m.2 = 7) then 100
   else if (m.1 = 0 ∨ m.1 = 7 ∨ m.2 = 0 ∨ m.2 = 7) ∧ ¬isNextToCorner m.1 m.2 then 20
   else 0)
  + (if isNextToCorner m.1 m.2 then -50 else 0)
  + 2 * (countFlips b m.1 m.2 p : Int)
  + evaluateMobility b m p

/-- part_001 AIPlayer.makeExpertMove: fold over the candidates keeping the
first one whose score strictly exceeds the best so far; the initial best
score is negative infinity, represented by none, so the first candidate
always installs itself. -/
def makeExpertMove (b : Board) (validMoves : List (Int × Int)) (p : Nat) : Int × Int :=
  (validMoves.foldl
    (fun acc m =>
      let s := expertScore b p m
      match acc.2 with
      | none => (m, some s)
      | some bs => if bs < s then (m, some s) else acc)
    (validMoves.headD (0, 0), (none : Option Int))).1

/-- Modelled from the claim wording for the expert tier: identical to
expertScore except that the corner-adjacency penalty only applies when the
adjacent corner is an EMPTY cell of the board. -/
def claimExpertScore (b : Board) (p : Nat) (m : Int × Int) : Int :=
  (if (m.1 = 0 ∨ m.1 = 7) ∧ (m.2 = 0 ∨ m.2 = 7) then 100
   else if (m.1 = 0 ∨ m.1 = 7 ∨ m.2 = 0 ∨ m.2 = 7) ∧ ¬isNextToCorner m.1 m.2 then 20
   else 0)
  + (if [((0:Int),(0:Int)), (0,7), (7,0), (7,7)].any (fun q =>
        decide (|m.1 - q.1| ≤ 1 ∧ |m.2 - q.2| ≤ 1 ∧ ¬(m.1 = q.1 ∧ m.2 = q.2) ∧
                b q.1 q.2 = 0)) then -50 else 0)
  + 2 * (countFlips b m.1 m.2 p : Int)
  + evaluateMobility b m p

/-- First element of the list attaining the maximal score: the selection
rule stated by the spec ("select the maximum, first-seen tie-break"),
as a predicate. -/
def IsFirstArgmax (score : (Int × Int) → Int) (l : List (Int × Int)) (a : Int × Int) : Prop :=
  ∃ l1 l2, l = l1 ++ a :: l2 ∧
    (∀ x ∈ l1, score x < score a) ∧ (∀ x ∈ l2, score x ≤ score a)

/-- The tail of the selection fold of makeExpertMove, once the best
candidate so far and its score are concrete. -/
def foldBest (score : (Int × Int) → Int) : List (Int × Int) → (Int × Int) → Int → (Int × Int) × Int
  | [], m, bs => (m, bs)
  | a :: l, m, bs => if bs < score a then foldBest score l a (score a) else foldBest score l m bs

end AI

/-! ## part_000 leaderboard rating -/

/-- A leaderboard record of part_000 (name keyed externally). -/
structure RatingEntry where
  rating : Int
  wins : Nat
  losses : Nat
  deriving DecidableEq, Repr

/-- The fresh record installed for an unknown player in part_000
updateLeaderboardRating. -/
def freshRating : RatingEntry := { rating := 1000, wins := 0, losses := 0 }

/-- part_000 updateLeaderboardRating applied to one record: a win adds 15
rating points, a loss removes 10 but clamps at 100 (any other result string
leaves the record unchanged). -/
def updateLeaderboardRating (e : RatingEntry) (result : V1.GRes) : RatingEntry :=
  match result with
  | .win => { e with rating := e.rating + 15, wins := e.wins + 1 }
  | .loss => { e with rating := max 100 (e.rating - 10), losses := e.losses + 1 }
  | .draw => e

/-! ## Concrete inputs used by the scenario claims and witnesses -/

/-- The opening position written by part_000 initializeBoard and the
part_001 constructor: white at (3,3) and (4,4), black at (3,4) and (4,3). -/
def initialBoard : Board := fun r c =>
  if (r = 3 ∧ c = 3) ∨ (r = 4 ∧ c = 4) then 2
  else if (r = 3 ∧ c = 4) ∨ (r = 4 ∧ c = 3) then 1
  else 0

/-- The opening position written by server.js initializeBoard (colours
mirrored relative to the other variants): black at (3,3) and (4,4). -/
def serverInitialBoard : Board := fun r c =>
  if (r = 3 ∧ c = 3) ∨ (r = 4 ∧ c = 4) then 1
  else if (r = 3 ∧ c = 4) ∨ (r = 4 ∧ c = 3) then 2
  else 0

/-- A position from which black playing (0,0) captures every white disc:
afterwards neither side has a legal move and the game must end. -/
def wipeBoard : Board := fun r c =>
  if r = 0 ∧ c = 1 then 2 else if r = 0 ∧ c = 2 then 1 else 0

/-- A server.js room ready for black to move on the opening position. -/
def openingSRoom : SRoom :=
  { board := serverInitialBoard, currentPlayer := 1, gameStarted := true,
    gameOver := false, winner := none, scores1 := 2, scores2 := 2,
    moveHistory := [] }

/-- A part_001 room with two connected human players, black to move on the
wipe-out position. -/
def wipeARoom : V1.ARoom :=
  { board := wipeBoard, currentPlayer := 1,
    players := [⟨10, "An", 1, true, false⟩, ⟨11, "Binh", 2, true, false⟩],
    gameStarted := true, gameOver := false, winner := none,
    moveHistory := [], ledger := [] }

/-- A board on which the expert AI scoring of the code and of the claim
pick different moves for black: the corner (0,0) is occupied by black, so
the claim applies no corner-adjacency penalty to the candidate (0,1) while
the code does. -/
def aiBoard : Board := fun r c =>
  if r = 0 ∧ c = 0 then 1
  else if r = 0 ∧ (c = 2 ∨ c = 3 ∨ c = 4) then 2
  else if r = 0 ∧ c = 5 then 1
  else if r = 5 ∧ c = 6 then 2
  else if r = 5 ∧ c = 7 then 1
  else 0

/-- A sample move record. -/
def exRec : V1.AMoveRec := ⟨1, 0, 0, []⟩

/-! ## General lemmas about the board primitives -/

lemma opp_ne (p : Nat) : opp p ≠ p := by
  unfold opp; split <;> omega

lemma opp_ne_zero (p : Nat) : opp p ≠ 0 := by
  unfold opp; split <;> omega

lemma setCell_same (b : Board) (r c : Int) (v : Nat) : setCell b r c v r c = v := by
  simp [setCell]

lemma setCell_other (b : Board) (r c x y : Int) (v : Nat) (h : ¬(x = r ∧ y = c)) :
    setCell b r c v x y = b x y := by
  simp [setCell, h]

/-! ### The ray walk -/

lemma scanRay_zero (b : Board) (o : Nat) (dr dc x y : Int) :
    scanRay b o dr dc 0 x y = ([], x, y) := rfl

lemma scanRay_succ (b : Board) (o : Nat) (dr dc x y : Int) (fuel : Nat) :
    scanRay b o dr dc (fuel + 1) x y =
      if inB x y ∧ b x y = o then
        ((x, y) :: (scanRay b o dr dc fuel (x + dr) (y + dc)).1,
         (scanRay b o dr dc fuel (x + dr) (y + dc)).2)
      else ([], x, y) := by
  simp only [scanRay]

lemma scanRay_len_le (b : Board) (o : Nat) (dr dc : Int) :
    ∀ (fuel : Nat) (x y : Int), (scanRay b o dr dc fuel x y).1.length ≤ fuel := by
  intro fuel
  induction fuel with
  | zero => intro x y; simp [scanRay_zero]
  | succ n ih =>
    intro x y
    rw [scanRay_succ]
    split
    · simpa using ih (x + dr) (y + dc)
    · simp

lemma scanRay_end (b : Board) (o : Nat) (dr dc : Int) :
    ∀ (fuel : Nat) (x y : Int),
      (scanRay b o dr dc fuel x y).2 =
        (x + ((scanRay b o dr dc fuel x y).1.length : Int) * dr,
         y + ((scanRay b o dr dc fuel x y).1.length : Int) * dc) := by
  intro fuel
  induction fuel with
  | zero => intro x y; simp [scanRay_zero]
  | succ n ih =>
    intro x y
    rw [scanRay_succ]
    split
    · have h := ih (x + dr) (y + dc)
      simp only [List.length_cons]
      rw [h]
      simp only [Prod.mk.injEq]
      constructor <;> (push_cast; ring)
    · simp

lemma scanRay_shape (b : Board) (o : Nat) (dr dc : Int) :
    ∀ (fuel : Nat) (x y : Int),
      (scanRay b o dr dc fuel x y).1 =
        (List.range (scanRay b o dr dc fuel x y).1.length).map
          (fun (j : Nat) => (x + (j : Int) * dr, y + (j : Int) * dc)) := by
  intro fuel
  induction fuel with
  | zero => intro x y; simp [scanRay_zero]
  | succ n ih =>
    intro x y
    rw [scanRay_succ]
    split
    · simp only [List.length_cons]
      rw [List.range_succ_eq_map, List.map_cons, List.map_map]
      simp only [List.cons.injEq]
      refine ⟨by simp, ?_⟩
      rw [ih (x + dr) (y + dc)]
      simp only [List.length_map, List.length_range]
      apply List.map_congr_left
      intro j _
      simp only [Function.comp_apply, Nat.succ_eq_add_one, Prod.mk.injEq]
      constructor <;> (push_cast; ring)
    · simp

lemma scanRay_vals (b : Board) (o : Nat) (dr dc : Int) :
    ∀ (fuel : Nat) (x y : Int) (q : Int × Int),
      q ∈ (scanRay b o dr dc fuel x y).1 → inB q.1 q.2 ∧ b q.1 q.2 = o := by
  intro fuel
  induction fuel with
  | zero => intro x y q hq; simp [scanRay_zero] at hq
  | succ n ih =>
    intro x y q hq
    rw [scanRay_succ] at hq
    split at hq
    · rename_i hcond
      rcases List.mem_cons.mp hq with h | h
      · subst h; exact hcond
      · exact ih (x + dr) (y + dc) q h
    · simp at hq

lemma scanRay_stop (b : Board) (o : Nat) (dr dc : Int) :
    ∀ (fuel : Nat) (x y : Int),
      (scanRay b o dr dc fuel x y).1.length < fuel →
      ¬(inB (scanRay b o dr dc fuel x y).2.1 (scanRay b o dr dc fuel x y).2.2 ∧
        b (scanRay b o dr dc fuel x y).2.1 (scanRay b o dr dc fuel x y).2.2 = o) := by
  intro fuel
  induction fuel with
  | zero => intro x y h; omega
  | succ n ih =>
    intro x y h
    rw [scanRay_succ] at h ⊢
    by_cases hcond : inB x y ∧ b x y = o
    · rw [if_pos hcond] at h ⊢
      simp only [List.length_cons] at h
      simpa using ih (x + dr) (y + dc) (by omega)
    · rw [if_neg hcond] at h ⊢
      exact hcond

lemma scanRay_complete (b : Board) (o : Nat) (dr dc : Int) :
    ∀ (fuel k : Nat) (x y : Int), k ≤ fuel →
      (∀ j : Nat, j < k →
        inB (x + (j : Int) * dr) (y + (j : Int) * dc) ∧
        b (x + (j : Int) * dr) (y + (j : Int) * dc) = o) →
      k ≤ (scanRay b o dr dc fuel x y).1.length := by
  intro fuel
  induction fuel with
  | zero => intro k x y hk _; omega
  | succ n ih =>
    intro k x y hk hall
    match k with
    | 0 => omega
    | k' + 1 =>
      have h0 := hall 0 (by omega)
      simp only [Nat.cast_zero, zero_mul, add_zero] at h0
      rw [scanRay_succ]
      simp only [h0, and_self, if_true, List.length_cons]
      have hrec : k' ≤ (scanRay b o dr dc n (x + dr) (y + dc)).1.length := by
        apply ih k' (x + dr) (y + dc) (by omega)
        intro j hj
        have := hall (j + 1) (by omega)
        have e1 : x + dr + (j : Int) * dr = x + ((j + 1 : Nat) : Int) * dr := by
          push_cast; ring
        have e2 : y + dc + (j : Int) * dc = y + ((j + 1 : Nat) : Int) * dc := by
          push_cast; ring
        rw [e1, e2]
        exact this
      omega

lemma scanRay_congr (b b2 : Board) (o : Nat) (dr dc : Int) :
    ∀ (fuel : Nat) (x y : Int),
      (∀ j : Nat, j < fuel →
        b (x + (j : Int) * dr) (y + (j : Int) * dc) =
          b2 (x + (j : Int) * dr) (y + (j : Int) * dc)) →
      scanRay b o dr dc fuel x y = scanRay b2 o dr dc fuel x y := by
  intro fuel
  induction fuel with
  | zero => intro x y _; rfl
  | succ n ih =>
    intro x y hagree
    have h0 := hagree 0 (by omega)
    simp only [Nat.cast_zero, zero_mul, add_zero] at h0
    have hrec : scanRay b o dr dc n (x + dr) (y + dc) =
        scanRay b2 o dr dc n (x + dr) (y + dc) := by
      apply ih
      intro j hj
      have := hagree (j + 1) (by omega)
      have e1 : x + dr + (j : Int) * dr = x + ((j + 1 : Nat) : Int) * dr := by
        push_cast; ring
      have e2 : y + dc + (j : Int) * dc = y + ((j + 1 : Nat) : Int) * dc := by
        push_cast; ring
      rw [e1, e2]
      exact this
    rw [scanRay_succ, scanRay_succ, h0, hrec]

/-! ### Geometry of the 8 directions -/

lemma mem_dirs_iff (d : Int × Int) :
    d ∈ dirs ↔ d = (-1,-1) ∨ d = (-1,0) ∨ d = (-1,1) ∨ d = (0,-1) ∨
      d = (0,1) ∨ d = (1,-1) ∨ d = (1,0) ∨ d = (1,1) := by
  simp [dirs]

lemma dirs_nodup : dirs.Nodup := by decide

/-- At most 7 steps along any direction stay on the board, starting from an
on-board cell. -/
lemma dir_bound (d : Int × Int) (hd : d ∈ dirs) (r c : Int) (n : Nat)
    (h0 : inB r c) (hn : inB (r + (n : Int) * d.1) (c + (n : Int) * d.2)) :
    n ≤ 7 := by
  unfold inB at h0 hn
  rcases (mem_dirs_iff d).mp hd with rfl|rfl|rfl|rfl|rfl|rfl|rfl|rfl <;>
    simp only [mul_neg_one, mul_zero, mul_one] at hn <;> omega

/-- Distinct directions trace disjoint rays: a cell i steps out along one
direction never equals a cell j steps out along a different one. -/
lemma ray_disjoint (d e : Int × Int) (hd : d ∈ dirs) (he : e ∈ dirs) (hne : d ≠ e)
    (r c : Int) (i j : Nat) (hi : 1 ≤ i) (hj : 1 ≤ j) :
    (r + (i : Int) * d.1, c + (i : Int) * d.2) ≠
      (r + (j : Int) * e.1, c + (j : Int) * e.2) := by
  rcases (mem_dirs_iff d).mp hd with rfl|rfl|rfl|rfl|rfl|rfl|rfl|rfl <;>
    rcases (mem_dirs_iff e).mp he with rfl|rfl|rfl|rfl|rfl|rfl|rfl|rfl <;>
    (try exact absurd rfl hne) <;>
    (intro hEq
     simp only [Prod.mk.injEq, mul_neg_one, mul_zero, mul_one] at hEq
     omega)

/-- Along one direction, distinct step counts give distinct cells. -/
lemma ray_inj (d : Int × Int) (hd : d ∈ dirs) (x y : Int) (i j : Nat)
    (h : (x + (i : Int) * d.1, y + (i : Int) * d.2) =
          (x + (j : Int) * d.1, y + (j : Int) * d.2)) : i = j := by
  rcases (mem_dirs_iff d).mp hd with rfl|rfl|rfl|rfl|rfl|rfl|rfl|rfl <;>
    (simp only [Prod.mk.injEq, mul_neg_one, mul_zero, mul_one] at h; omega)

/-! ### Flipping runs of cells -/

lemma flipRun_nil (b : Board) (p : Nat) : flipRun b p [] = b := rfl

lemma flipRun_cons (b : Board) (p : Nat) (q : Int × Int) (cells : List (Int × Int)) :
    flipRun b p (q :: cells) = flipRun (setCell b q.1 q.2 p) p cells := rfl

lemma flipRun_append (b : Board) (p : Nat) (l1 l2 : List (Int × Int)) :
    flipRun b p (l1 ++ l2) = flipRun (flipRun b p l1) p l2 := by
  simp [flipRun, List.foldl_append]

lemma flipRun_not_mem (b : Board) (p : Nat) (cells : List (Int × Int)) (x y : Int)
    (h : (x, y) ∉ cells) : flipRun b p cells x y = b x y := by
  induction cells generalizing b with
  | nil => rfl
  | cons q t ih =>
    rw [flipRun_cons]
    rw [ih _ (fun hmem => h (List.mem_cons_of_mem q hmem))]
    apply setCell_other
    intro hxy
    exact h (by
      have : (x, y) = q := by
        have hq : q = (q.1, q.2) := rfl
        rw [hq, Prod.ext_iff]
        exact hxy
      simp [this])

lemma flipRun_mem (b : Board) (p : Nat) (cells : List (Int × Int)) (q : Int × Int)
    (h : q ∈ cells) : flipRun b p cells q.1 q.2 = p := by
  induction cells generalizing b with
  | nil => simp at h
  | cons a t ih =>
    rw [flipRun_cons]
    by_cases hq : q ∈ t
    · exact ih _ hq
    · have hqa : q = a := by
        rcases List.mem_cons.mp h with h1 | h1
        · exact h1
        · exact absurd h1 hq
      subst hqa
      rw [flipRun_not_mem _ _ _ _ _ hq]
      exact setCell_same _ _ _ _

/-! ### Soundness and completeness of the per-direction validity test -/

lemma step_coord (r dr : Int) (j : Nat) :
    r + dr + (j : Int) * dr = r + ((j + 1 : Nat) : Int) * dr := by
  push_cast; ring

lemma rayValidB_iff (b : Board) (p : Nat) (r c : Int) (d : Int × Int)
    (hd : d ∈ dirs) (hrc : inB r c) :
    rayValidB b r c p d = true ↔ ∃ n, FlankAt b p r c d n := by
  have hshape := scanRay_shape b (opp p) d.1 d.2 8 (r + d.1) (c + d.2)
  have hend := scanRay_end b (opp p) d.1 d.2 8 (r + d.1) (c + d.2)
  have hfuel := scanRay_len_le b (opp p) d.1 d.2 8 (r + d.1) (c + d.2)
  constructor
  · intro hval
    unfold rayValidB at hval
    simp only [Bool.and_eq_true, decide_eq_true_eq] at hval
    obtain ⟨⟨hinE, hbE⟩, hne⟩ := hval
    have hL1 : 1 ≤ (scanRay b (opp p) d.1 d.2 8 (r + d.1) (c + d.2)).1.length := by
      rcases Nat.eq_zero_or_pos (scanRay b (opp p) d.1 d.2 8 (r + d.1) (c + d.2)).1.length
        with h0 | h1
      · exact absurd (List.length_eq_zero.mp h0) hne
      · exact h1
    refine ⟨(scanRay b (opp p) d.1 d.2 8 (r + d.1) (c + d.2)).1.length, hL1, ?_, ?_, ?_⟩
    · intro i hi1 hiL
      obtain ⟨j, rfl⟩ : ∃ j, i = j + 1 := ⟨i - 1, by omega⟩
      have hmem : (r + d.1 + (j : Int) * d.1, c + d.2 + (j : Int) * d.2) ∈
          (scanRay b (opp p) d.1 d.2 8 (r + d.1) (c + d.2)).1 := by
        rw [hshape]
        exact List.mem_map_of_mem _ (List.mem_range.mpr (by omega))
      have hv := scanRay_vals b (opp p) d.1 d.2 8 (r + d.1) (c + d.2) _ hmem
      rw [step_coord r d.1 j, step_coord c d.2 j] at hv
      exact hv
    · rw [hend] at hinE
      have e1 : r + d.1 +
          ((scanRay b (opp p) d.1 d.2 8 (r + d.1) (c + d.2)).1.length : Int) * d.1 =
          r + (((scanRay b (opp p) d.1 d.2 8 (r + d.1) (c + d.2)).1.length : Int) + 1) * d.1 := by
        ring
      have e2 : c + d.2 +
          ((scanRay b (opp p) d.1 d.2 8 (r + d.1) (c + d.2)).1.length : Int) * d.2 =
          c + (((scanRay b (opp p) d.1 d.2 8 (r + d.1) (c + d.2)).1.length : Int) + 1) * d.2 := by
        ring
      rw [e1, e2] at hinE
      exact hinE
    · rw [hend] at hbE
      have e1 : r + d.1 +
          ((scanRay b (opp p) d.1 d.2 8 (r + d.1) (c + d.2)).1.length : Int) * d.1 =
          r + (((scanRay b (opp p) d.1 d.2 8 (r + d.1) (c + d.2)).1.length : Int) + 1) * d.1 := by
        ring
      have e2 : c + d.2 +
          ((scanRay b (opp p) d.1 d.2 8 (r + d.1) (c + d.2)).1.length : Int) * d.2 =
          c + (((scanRay b (opp p) d.1 d.2 8 (r + d.1) (c + d.2)).1.length : Int) + 1) * d.2 := by
        ring
      rw [e1, e2] at hbE
      exact hbE
  · rintro ⟨n, hn1, hrun, hinT, hbT⟩
    have hn7 : n ≤ 7 := by
      have h := hrun n hn1 le_rfl
      exact dir_bound d hd r c n hrc h.1
    have hgeL : n ≤ (scanRay b (opp p) d.1 d.2 8 (r + d.1) (c + d.2)).1.length := by
      apply scanRay_complete b (opp p) d.1 d.2 8 n (r + d.1) (c + d.2) (by omega)
      intro j hj
      have h := hrun (j + 1) (by omega) (by omega)
      rw [step_coord r d.1 j, step_coord c d.2 j]
      exact h
    have hleL : (scanRay b (opp p) d.1 d.2 8 (r + d.1) (c + d.2)).1.length ≤ n := by
      by_contra hlt
      push_neg at hlt
      have hmem : (r + d.1 + (n : Int) * d.1, c + d.2 + (n : Int) * d.2) ∈
          (scanRay b (opp p) d.1 d.2 8 (r + d.1) (c + d.2)).1 := by
        rw [hshape]
        exact List.mem_map_of_mem _ (List.mem_range.mpr hlt)
      have hv := scanRay_vals b (opp p) d.1 d.2 8 (r + d.1) (c + d.2) _ hmem
      rw [step_coord r d.1 n, step_coord c d.2 n] at hv
      have e1 : r + ((n + 1 : Nat) : Int) * d.1 = r + ((n : Int) + 1) * d.1 := by
        push_cast; ring
      have e2 : c + ((n + 1 : Nat) : Int) * d.2 = c + ((n : Int) + 1) * d.2 := by
        push_cast; ring
      rw [e1, e2] at hv
      rw [hbT] at hv
      exact opp_ne p hv.2.symm
    have hLn : (scanRay b (opp p) d.1 d.2 8 (r + d.1) (c + d.2)).1.length = n :=
      le_antisymm hleL hgeL
    unfold rayValidB
    simp only [Bool.and_eq_true, decide_eq_true_eq]
    refine ⟨⟨?_, ?_⟩, ?_⟩
    · rw [hend, hLn]
      have e1 : r + d.1 + (n : Int) * d.1 = r + ((n : Int) + 1) * d.1 := by ring
      have e2 : c + d.2 + (n : Int) * d.2 = c + ((n : Int) + 1) * d.2 := by ring
      rw [e1, e2]
      exact hinT
    · rw [hend, hLn]
      have e1 : r + d.1 + (n : Int) * d.1 = r + ((n : Int) + 1) * d.1 := by ring
      have e2 : c + d.2 + (n : Int) * d.2 = c + ((n : Int) + 1) * d.2 := by ring
      rw [e1, e2]
      exact hbT
    · intro hnil
      rw [hnil] at hLn
      simp at hLn
      omega

lemma mem_calculateValidMoves (b : Board) (p : Nat) (x y : Int) :
    (x, y) ∈ calculateValidMoves b p ↔
      inB x y ∧ b x y = 0 ∧ isValidMove b x y p = true := by
  constructor
  · intro h
    unfold calculateValidMoves at h
    rw [List.mem_flatMap] at h
    obtain ⟨r, hr, h⟩ := h
    rw [List.mem_filterMap] at h
    obtain ⟨c, hc, h⟩ := h
    rw [List.mem_range] at hr hc
    by_cases hcond : b (r : Int) (c : Int) = 0 ∧ isValidMove b (r : Int) (c : Int) p = true
    · rw [if_pos hcond] at h
      obtain ⟨h0, hv⟩ := hcond
      have hpair := Option.some.inj h
      simp only [Prod.mk.injEq] at hpair
      obtain ⟨hx, hy⟩ := hpair
      subst hx; subst hy
      exact ⟨by unfold inB; omega, h0, hv⟩
    · rw [if_neg hcond] at h
      simp at h
  · rintro ⟨hin, h0, hv⟩
    obtain ⟨hx0, hx8, hy0, hy8⟩ := hin
    unfold calculateValidMoves
    rw [List.mem_flatMap]
    refine ⟨x.toNat, List.mem_range.mpr (by omega), ?_⟩
    rw [List.mem_filterMap]
    refine ⟨y.toNat, List.mem_range.mpr (by omega), ?_⟩
    have ex : ((x.toNat : Nat) : Int) = x := Int.toNat_of_nonneg hx0
    have ey : ((y.toNat : Nat) : Int) = y := Int.toNat_of_nonneg hy0
    rw [ex, ey, if_pos ⟨h0, hv⟩]

/-! ## Claim C1 -/

/-- C1: for every board and side, the legal-move computation
(calculateValidMoves) contains a cell (x, y) exactly when that cell is an
empty board cell and along at least one of the 8 rays there is a non-empty
run of opposing discs immediately adjacent, terminated by a disc of the
moving side before running off the board or reaching an empty cell; in
particular it never contains an occupied cell. -/
theorem C1_legalMoves_iff (b : Board) (p : Nat) (x y : Int) :
    (x, y) ∈ calculateValidMoves b p ↔
      inB x y ∧ b x y = 0 ∧ ∃ d ∈ dirs, ∃ n, FlankAt b p x y d n := by
  rw [mem_calculateValidMoves]
  constructor
  · rintro ⟨hin, h0, hv⟩
    refine ⟨hin, h0, ?_⟩
    unfold isValidMove at hv
    simp only [Bool.and_eq_true, decide_eq_true_eq, List.any_eq_true] at hv
    obtain ⟨-, d, hd, hray⟩ := hv
    exact ⟨d, hd, (rayValidB_iff b p x y d hd hin).mp hray⟩
  · rintro ⟨hin, h0, d, hd, n, hfl⟩
    refine ⟨hin, h0, ?_⟩
    unfold isValidMove
    simp only [Bool.and_eq_true, decide_eq_true_eq, List.any_eq_true]
    exact ⟨h0, d, hd, (rayValidB_iff b p x y d hd hin).mpr ⟨n, hfl⟩⟩

/-! ### In-place flipping coincides with snapshot flipping -/

lemma applyDirs_nil (p : Nat) (r c : Int) (b : Board) :
    applyDirs p r c [] b = (b, []) := rfl

lemma applyDirs_cons (p : Nat) (r c : Int) (d : Int × Int) (ds : List (Int × Int))
    (b : Board) :
    applyDirs p r c (d :: ds) b =
      if inB (scanRay b (opp p) d.1 d.2 8 (r + d.1) (c + d.2)).2.1
            (scanRay b (opp p) d.1 d.2 8 (r + d.1) (c + d.2)).2.2 ∧
          b (scanRay b (opp p) d.1 d.2 8 (r + d.1) (c + d.2)).2.1
            (scanRay b (opp p) d.1 d.2 8 (r + d.1) (c + d.2)).2.2 = p ∧
          (scanRay b (opp p) d.1 d.2 8 (r + d.1) (c + d.2)).1 ≠ [] then
        ((applyDirs p r c ds
            (flipRun b p (scanRay b (opp p) d.1 d.2 8 (r + d.1) (c + d.2)).1)).1,
          (scanRay b (opp p) d.1 d.2 8 (r + d.1) (c + d.2)).1 ++
            (applyDirs p r c ds
              (flipRun b p (scanRay b (opp p) d.1 d.2 8 (r + d.1) (c + d.2)).1)).2)
      else applyDirs p r c ds b := by
  simp only [applyDirs]

/-- Every cell contributed by one ray lies between 1 and 8 steps out along
that ray, and held the opponent value on the snapshot. -/
lemma rayFlips_mem (b : Board) (r c : Int) (p : Nat) (d : Int × Int) (q : Int × Int)
    (hq : q ∈ rayFlips b r c p d) :
    (∃ i : Nat, 1 ≤ i ∧ i ≤ 8 ∧
        q = (r + (i : Int) * d.1, c + (i : Int) * d.2)) ∧
      inB q.1 q.2 ∧ b q.1 q.2 = opp p := by
  simp only [rayFlips] at hq
  split at hq
  case isFalse => simp at hq
  case isTrue hcond =>
    have hvals := scanRay_vals b (opp p) d.1 d.2 8 (r + d.1) (c + d.2) q hq
    refine ⟨?_, hvals⟩
    have hshape := scanRay_shape b (opp p) d.1 d.2 8 (r + d.1) (c + d.2)
    have hfuel := scanRay_len_le b (opp p) d.1 d.2 8 (r + d.1) (c + d.2)
    rw [hshape] at hq
    obtain ⟨j, hj, hjq⟩ := List.mem_map.mp hq
    rw [List.mem_range] at hj
    refine ⟨j + 1, by omega, by omega, ?_⟩
    rw [← hjq]
    simp only [Prod.mk.injEq]
    exact ⟨(step_coord r d.1 j).symm ▸ rfl, (step_coord c d.2 j).symm ▸ rfl⟩

/-- Processing the directions with in-place flipping, starting from any
board that agrees with the snapshot b1 on every cell up to 9 steps out
along each remaining direction, yields exactly the snapshot flips and the
snapshot result. -/
lemma applyDirs_eq_spec (p : Nat) (r c : Int) (b1 : Board) :
    ∀ (ds : List (Int × Int)), ds.Nodup → (∀ d ∈ ds, d ∈ dirs) →
      ∀ (bcur : Board),
        (∀ d ∈ ds, ∀ i : Nat, 1 ≤ i → i ≤ 9 →
          bcur (r + (i : Int) * d.1) (c + (i : Int) * d.2) =
            b1 (r + (i : Int) * d.1) (c + (i : Int) * d.2)) →
        applyDirs p r c ds bcur =
          (flipRun bcur p (ds.flatMap (rayFlips b1 r c p)),
            ds.flatMap (rayFlips b1 r c p)) := by
  intro ds
  induction ds with
  | nil => intro _ _ bcur _; simp [applyDirs_nil, flipRun]
  | cons d ds ih =>
    intro hnd hsub bcur hagree
    have hdmem : d ∈ dirs := hsub d (List.mem_cons_self d ds)
    have hagreeHead := hagree d (List.mem_cons_self d ds)
    -- the scan of this ray reads only cells 1..8 steps out, where bcur = b1
    have hscan : scanRay bcur (opp p) d.1 d.2 8 (r + d.1) (c + d.2) =
        scanRay b1 (opp p) d.1 d.2 8 (r + d.1) (c + d.2) := by
      apply scanRay_congr
      intro j hj
      rw [step_coord r d.1 j, step_coord c d.2 j]
      exact hagreeHead (j + 1) (by omega) (by omega)
    have hfuel := scanRay_len_le b1 (opp p) d.1 d.2 8 (r + d.1) (c + d.2)
    have hendpos := scanRay_end b1 (opp p) d.1 d.2 8 (r + d.1) (c + d.2)
    -- the terminator cell is at most 9 steps out, where bcur = b1
    have hterm : bcur (scanRay b1 (opp p) d.1 d.2 8 (r + d.1) (c + d.2)).2.1
          (scanRay b1 (opp p) d.1 d.2 8 (r + d.1) (c + d.2)).2.2 =
        b1 (scanRay b1 (opp p) d.1 d.2 8 (r + d.1) (c + d.2)).2.1
          (scanRay b1 (opp p) d.1 d.2 8 (r + d.1) (c + d.2)).2.2 := by
      rw [hendpos]
      rw [step_coord r d.1 _, step_coord c d.2 _]
      exact hagreeHead _ (by omega) (by omega)
    rw [applyDirs_cons, hscan, hterm]
    have hndTail : ds.Nodup := (List.nodup_cons.mp hnd).2
    have hdNotTail : d ∉ ds := (List.nodup_cons.mp hnd).1
    have hsubTail : ∀ e ∈ ds, e ∈ dirs := fun e he => hsub e (List.mem_cons_of_mem d he)
    by_cases hcond : inB (scanRay b1 (opp p) d.1 d.2 8 (r + d.1) (c + d.2)).2.1
        (scanRay b1 (opp p) d.1 d.2 8 (r + d.1) (c + d.2)).2.2 ∧
        b1 (scanRay b1 (opp p) d.1 d.2 8 (r + d.1) (c + d.2)).2.1
          (scanRay b1 (opp p) d.1 d.2 8 (r + d.1) (c + d.2)).2.2 = p ∧
        (scanRay b1 (opp p) d.1 d.2 8 (r + d.1) (c + d.2)).1 ≠ []
    · rw [if_pos hcond]
      have hF : rayFlips b1 r c p d =
          (scanRay b1 (opp p) d.1 d.2 8 (r + d.1) (c + d.2)).1 := by
        simp only [rayFlips]
        rw [if_pos hcond]
      have hagreeTail : ∀ e ∈ ds, ∀ i : Nat, 1 ≤ i → i ≤ 9 →
          flipRun bcur p (scanRay b1 (opp p) d.1 d.2 8 (r + d.1) (c + d.2)).1
              (r + (i : Int) * e.1) (c + (i : Int) * e.2) =
            b1 (r + (i : Int) * e.1) (c + (i : Int) * e.2) := by
        intro e he i hi1 hi9
        have hnotmem : (r + (i : Int) * e.1, c + (i : Int) * e.2) ∉
            (scanRay b1 (opp p) d.1 d.2 8 (r + d.1) (c + d.2)).1 := by
          intro hmem
          rw [← hF] at hmem
          obtain ⟨⟨j, hj1, hj8, hjq⟩, -, -⟩ := rayFlips_mem b1 r c p d _ hmem
          have hne : d ≠ e := fun hde => hdNotTail (hde ▸ he)
          exact ray_disjoint d e hdmem (hsubTail e he) hne r c j i hj1 hi1 hjq.symm
        rw [flipRun_not_mem _ _ _ _ _ hnotmem]
        exact hagree e (List.mem_cons_of_mem d he) i hi1 hi9
      rw [ih hndTail hsubTail _ hagreeTail]
      rw [List.flatMap_cons, hF, flipRun_append]
    · rw [if_neg hcond]
      have hF : rayFlips b1 r c p d = [] := by
        simp only [rayFlips]
        rw [if_neg hcond]
      have hagreeTail : ∀ e ∈ ds, ∀ i : Nat, 1 ≤ i → i ≤ 9 →
          bcur (r + (i : Int) * e.1) (c + (i : Int) * e.2) =
            b1 (r + (i : Int) * e.1) (c + (i : Int) * e.2) :=
        fun e he => hagree e (List.mem_cons_of_mem d he)
      rw [ih hndTail hsubTail _ hagreeTail]
      rw [List.flatMap_cons, hF, List.nil_append]

/-- The in-place application and the snapshot application coincide
(unconditionally: the rays of distinct directions are disjoint, so the
flips of one ray never change what another ray reads). -/
lemma applyMove_eq_applyMoveSpec (b : Board) (r c : Int) (p : Nat) :
    applyMove b r c p = applyMoveSpec b r c p := by
  unfold applyMove applyMoveSpec
  exact applyDirs_eq_spec p r c (setCell b r c p) dirs dirs_nodup
    (fun d hd => hd) (setCell b r c p) (fun d hd i hi1 hi9 => rfl)

/-! ### Disc counting -/

lemma mem_allCells (x y : Int) : (x, y) ∈ allCells ↔ inB x y := by
  constructor
  · intro h
    unfold allCells at h
    rw [List.mem_flatMap] at h
    obtain ⟨r, hr, h⟩ := h
    rw [List.mem_map] at h
    obtain ⟨c, hc, h⟩ := h
    rw [List.mem_range] at hr hc
    simp only [Prod.mk.injEq] at h
    obtain ⟨hx, hy⟩ := h
    subst hx; subst hy
    unfold inB; omega
  · intro h
    obtain ⟨hx0, hx8, hy0, hy8⟩ := h
    unfold allCells
    rw [List.mem_flatMap]
    refine ⟨x.toNat, List.mem_range.mpr (by omega), ?_⟩
    rw [List.mem_map]
    refine ⟨y.toNat, List.mem_range.mpr (by omega), ?_⟩
    simp only [Prod.mk.injEq]
    exact ⟨Int.toNat_of_nonneg hx0, Int.toNat_of_nonneg hy0⟩

lemma allCells_nodup : allCells.Nodup := by decide

/-- Exchanging the count of two predicates that differ at most at one list
element of a duplicate-free list. -/
lemma countP_update {α : Type} (l : List α) (hnd : l.Nodup) (a : α) (ha : a ∈ l)
    (f g : α → Bool) (hfg : ∀ q ∈ l, q ≠ a → f q = g q) :
    l.countP f + (if g a then 1 else 0) = l.countP g + (if f a then 1 else 0) := by
  induction l with
  | nil => simp at ha
  | cons x t ih =>
    rw [List.countP_cons, List.countP_cons]
    by_cases hxa : x = a
    · subst hxa
      have hnotin : x ∉ t := (List.nodup_cons.mp hnd).1
      have ht : t.countP f = t.countP g := by
        apply List.countP_congr
        intro q hq
        rw [hfg q (List.mem_cons_of_mem x hq) (fun h => hnotin (h ▸ hq))]
      rw [ht]
      omega
    · have hat : a ∈ t := by
        rcases List.mem_cons.mp ha with h | h
        · exact absurd h.symm hxa
        · exact h
      have hfx : f x = g x := hfg x (List.mem_cons_self x t) hxa
      have ht := ih (List.nodup_cons.mp hnd).2 hat
        (fun q hq hqa => hfg q (List.mem_cons_of_mem x hq) hqa)
      rw [hfx]
      omega

/-- Writing one on-board cell changes the colour counts by exactly the
leaving and the entering value. -/
lemma countColor_set (b : Board) (x y : Int) (hin : inB x y) (v w : Nat) :
    countColor (setCell b x y v) w + (if b x y = w then 1 else 0) =
      countColor b w + (if v = w then 1 else 0) := by
  unfold countColor
  have h := countP_update allCells allCells_nodup (x, y) ((mem_allCells x y).mpr hin)
    (fun q => decide (setCell b x y v q.1 q.2 = w)) (fun q => decide (b q.1 q.2 = w))
    (fun q hq hqa => by
      have hne : ¬(q.1 = x ∧ q.2 = y) := by
        intro hh
        apply hqa
        have h1 : q = (q.1, q.2) := rfl
        rw [h1, Prod.mk.injEq]
        exact hh
      show decide (setCell b x y v q.1 q.2 = w) = decide (b q.1 q.2 = w)
      rw [setCell_other b x y q.1 q.2 v hne])
  simp only [setCell_same, decide_eq_true_eq] at h
  exact h

lemma rayFlips_nodup (b : Board) (r c : Int) (p : Nat) (d : Int × Int)
    (hd : d ∈ dirs) : (rayFlips b r c p d).Nodup := by
  simp only [rayFlips]
  split
  · rw [scanRay_shape]
    exact List.Nodup.map (fun i j hij => ray_inj d hd (r + d.1) (c + d.2) i j hij)
      (List.nodup_range _)
  · exact List.nodup_nil

lemma flips_nodup (b : Board) (r c : Int) (p : Nat) :
    (dirs.flatMap (rayFlips b r c p)).Nodup := by
  rw [List.nodup_flatMap]
  refine ⟨fun d hd => rayFlips_nodup b r c p d hd, ?_⟩
  apply List.Nodup.pairwise_of_forall_ne dirs_nodup
  intro d hd e he hne
  intro q hqd hqe
  obtain ⟨⟨i, hi1, hi8, hiq⟩, -, -⟩ := rayFlips_mem b r c p d q hqd
  obtain ⟨⟨j, hj1, hj8, hjq⟩, -, -⟩ := rayFlips_mem b r c p e q hqe
  exact ray_disjoint d e hd he hne r c i j hi1 hj1 (hiq ▸ hjq ▸ rfl)

/-- Flipping a duplicate-free list of on-board opponent cells adds its
length to the count of the mover and removes it from the count of the opponent. -/
lemma countColor_flipRun (b : Board) (p : Nat) (cells : List (Int × Int))
    (hnd : cells.Nodup) (hin : ∀ q ∈ cells, inB q.1 q.2)
    (hval : ∀ q ∈ cells, b q.1 q.2 = opp p) :
    countColor (flipRun b p cells) p = countColor b p + cells.length ∧
    countColor (flipRun b p cells) (opp p) + cells.length = countColor b (opp p) := by
  induction cells generalizing b with
  | nil => simp [flipRun_nil]
  | cons q t ih =>
    have hqt : q ∉ t := (List.nodup_cons.mp hnd).1
    have hndt : t.Nodup := (List.nodup_cons.mp hnd).2
    have hint : ∀ x ∈ t, inB x.1 x.2 := fun x hx => hin x (List.mem_cons_of_mem _ hx)
    have hvalt : ∀ x ∈ t, setCell b q.1 q.2 p x.1 x.2 = opp p := by
      intro x hx
      rw [setCell_other]
      · exact hval x (List.mem_cons_of_mem _ hx)
      · intro hh
        apply hqt
        have hxq : x = q := by
          have h1 : x = (x.1, x.2) := rfl
          have h2 : q = (q.1, q.2) := rfl
          rw [h1, h2, Prod.mk.injEq]
          exact hh
        exact hxq ▸ hx
    obtain ⟨ih1, ih2⟩ := ih (setCell b q.1 q.2 p) hndt hint hvalt
    have hq_in := hin q (List.mem_cons_self q t)
    have hqv := hval q (List.mem_cons_self q t)
    have hset_p := countColor_set b q.1 q.2 hq_in p p
    have hset_o := countColor_set b q.1 q.2 hq_in p (opp p)
    rw [hqv] at hset_p hset_o
    have hno1 : ¬(opp p = p) := opp_ne p
    have hno2 : ¬(p = opp p) := fun h => opp_ne p h.symm
    simp only [if_neg hno1, if_pos rfl, if_neg hno2, if_true] at hset_p hset_o
    rw [flipRun_cons]
    refine ⟨?_, ?_⟩
    · simp only [List.length_cons]
      omega
    · simp only [List.length_cons]
      omega

/-! ## Claims C7 and C3 -/

/-- C7: for every board, legal move and side, applying the move ray by ray
with in-place flipping (applyMove, as server.js does) produces the same
final board and the same flipped cells as evaluating all 8 rays against the
single pre-move snapshot (applyMoveSpec). -/
theorem C7_inplace_eq_snapshot (b : Board) (r c : Int) (p : Nat)
    (hlegal : isValidMove b r c p = true) :
    (∀ x y : Int, (applyMove b r c p).1 x y = (applyMoveSpec b r c p).1 x y) ∧
    (applyMove b r c p).2 = (applyMoveSpec b r c p).2 := by
  rw [applyMove_eq_applyMoveSpec]
  exact ⟨fun x y => rfl, rfl⟩

/-- Witness for C7 at a concrete input: black plays (2,4) on the server.js
opening position. -/
theorem C7_witness :
    isValidMove serverInitialBoard 2 4 1 = true ∧
    ((∀ x y : Int,
        (applyMove serverInitialBoard 2 4 1).1 x y =
          (applyMoveSpec serverInitialBoard 2 4 1).1 x y) ∧
      (applyMove serverInitialBoard 2 4 1).2 = (applyMoveSpec serverInitialBoard 2 4 1).2) :=
  ⟨by decide, C7_inplace_eq_snapshot serverInitialBoard 2 4 1 (by decide)⟩

/-- C3: applying a legal move raises the disc count of the mover by exactly
one plus the number of flipped discs, lowers the opposing count by exactly
the flipped count, and raises the total count by exactly one. -/
theorem C3_score_change (b : Board) (p : Nat) (r c : Int)
    (hp : p = 1 ∨ p = 2) (hmove : (r, c) ∈ calculateValidMoves b p) :
    countColor (applyMove b r c p).1 p =
        countColor b p + 1 + (applyMove b r c p).2.length ∧
    countColor (applyMove b r c p).1 (opp p) + (applyMove b r c p).2.length =
        countColor b (opp p) ∧
    countColor (applyMove b r c p).1 p + countColor (applyMove b r c p).1 (opp p) =
        countColor b p + countColor b (opp p) + 1 := by
  obtain ⟨hin, h0, hv⟩ := (mem_calculateValidMoves b p r c).mp hmove
  rw [applyMove_eq_applyMoveSpec]
  have hspec1 : (applyMoveSpec b r c p).1 =
      flipRun (setCell b r c p) p (dirs.flatMap (rayFlips (setCell b r c p) r c p)) := rfl
  have hspec2 : (applyMoveSpec b r c p).2 =
      dirs.flatMap (rayFlips (setCell b r c p) r c p) := rfl
  rw [hspec1, hspec2]
  have hFnd := flips_nodup (setCell b r c p) r c p
  have hFin : ∀ q ∈ dirs.flatMap (rayFlips (setCell b r c p) r c p), inB q.1 q.2 := by
    intro q hq
    obtain ⟨d, hd, hqd⟩ := List.mem_flatMap.mp hq
    exact (rayFlips_mem _ r c p d q hqd).2.1
  have hFval : ∀ q ∈ dirs.flatMap (rayFlips (setCell b r c p) r c p),
      setCell b r c p q.1 q.2 = opp p := by
    intro q hq
    obtain ⟨d, hd, hqd⟩ := List.mem_flatMap.mp hq
    exact (rayFlips_mem _ r c p d q hqd).2.2
  obtain ⟨hc1, hc2⟩ := countColor_flipRun (setCell b r c p) p
    (dirs.flatMap (rayFlips (setCell b r c p) r c p)) hFnd hFin hFval
  have hp0 : ¬((0 : Nat) = p) := by rcases hp with rfl | rfl <;> omega
  have hset_p := countColor_set b r c hin p p
  have hset_o := countColor_set b r c hin p (opp p)
  rw [h0] at hset_p hset_o
  have hz1 : ¬((0 : Nat) = opp p) := fun h => opp_ne_zero p h.symm
  have hz2 : ¬(p = opp p) := fun h => opp_ne p h.symm
  simp only [if_neg hp0, if_pos rfl, if_neg hz1, if_neg hz2, if_true] at hset_p hset_o
  refine ⟨by omega, by omega, by omega⟩

/-- Witness for C3 at a concrete input: black plays (2,4) on the server.js
opening position (flipping one disc; counts go 2 to 4 and 2 to 1). -/
theorem C3_witness :
    ((1 : Nat) = 1 ∨ (1 : Nat) = 2) ∧
    ((2 : Int), (4 : Int)) ∈ calculateValidMoves serverInitialBoard 1 ∧
    (countColor (applyMove serverInitialBoard 2 4 1).1 1 =
        countColor serverInitialBoard 1 + 1 + (applyMove serverInitialBoard 2 4 1).2.length ∧
      countColor (applyMove serverInitialBoard 2 4 1).1 (opp 1) +
          (applyMove serverInitialBoard 2 4 1).2.length =
        countColor serverInitialBoard (opp 1) ∧
      countColor (applyMove serverInitialBoard 2 4 1).1 1 +
          countColor (applyMove serverInitialBoard 2 4 1).1 (opp 1) =
        countColor serverInitialBoard 1 + countColor serverInitialBoard (opp 1) + 1) :=
  ⟨Or.inl rfl, by decide,
    C3_score_change serverInitialBoard 1 2 4 (Or.inl rfl) (by decide)⟩

/-! ## Claim C2 -/

/-- C2: after an accepted move the turn is resolved on the post-move board:
if the side that did not just move has a legal move the turn switches to
it; if it has none but the mover has one, the turn stays with the mover
(silent pass); and if neither side has a legal move the room transitions to
the game-over state. -/
theorem C2_turn_resolution (room : SRoom) (pc : Nat) (row col : Int)
    (h1 : room.gameStarted = true) (h2 : room.gameOver = false)
    (h3 : pc = room.currentPlayer)
    (h4 : isValidMove room.board row col room.currentPlayer = true) :
    (calculateValidMoves (applyMove room.board row col room.currentPlayer).1
        (opp room.currentPlayer) ≠ [] →
      (serverMakeMove room pc row col).1.currentPlayer = opp room.currentPlayer ∧
      (serverMakeMove room pc row col).1.gameOver = false) ∧
    (calculateValidMoves (applyMove room.board row col room.currentPlayer).1
        (opp room.currentPlayer) = [] →
      calculateValidMoves (applyMove room.board row col room.currentPlayer).1
        room.currentPlayer ≠ [] →
      (serverMakeMove room pc row col).1.currentPlayer = room.currentPlayer ∧
      (serverMakeMove room pc row col).1.gameOver = false) ∧
    (calculateValidMoves (applyMove room.board row col room.currentPlayer).1
        (opp room.currentPlayer) = [] →
      calculateValidMoves (applyMove room.board row col room.currentPlayer).1
        room.currentPlayer = [] →
      (serverMakeMove room pc row col).1.gameOver = true) := by
  have hg1 : ¬(¬room.gameStarted ∨ room.gameOver) := by
    rw [h1, h2]; simp
  have hpc : ¬(pc ≠ room.currentPlayer) := fun h => h h3
  simp only [serverMakeMove]
  rw [if_neg hg1, if_neg hpc, if_pos h4]
  refine ⟨?_, ?_, ?_⟩
  · intro hnext
    rw [if_pos hnext]
    exact ⟨rfl, h2⟩
  · intro hnext hcur
    rw [if_neg (fun hh => hh hnext), if_pos hcur]
    exact ⟨rfl, h2⟩
  · intro hnext hcur
    rw [if_neg (fun hh => hh hnext), if_neg (fun hh => hh hcur)]
    simp only [checkGameEnd]
    rw [if_pos (Or.inr ⟨hcur, hnext⟩)]

/-- Witness for C2 at a concrete input: black plays (2,4) on the server.js
opening room (white then has legal moves, so the turn switches). -/
theorem C2_witness :
    openingSRoom.gameStarted = true ∧ openingSRoom.gameOver = false ∧
    (1 : Nat) = openingSRoom.currentPlayer ∧
    isValidMove openingSRoom.board 2 4 openingSRoom.currentPlayer = true ∧
    ((calculateValidMoves (applyMove openingSRoom.board 2 4 openingSRoom.currentPlayer).1
          (opp openingSRoom.currentPlayer) ≠ [] →
        (serverMakeMove openingSRoom 1 2 4).1.currentPlayer =
            opp openingSRoom.currentPlayer ∧
          (serverMakeMove openingSRoom 1 2 4).1.gameOver = false) ∧
      (calculateValidMoves (applyMove openingSRoom.board 2 4 openingSRoom.currentPlayer).1
          (opp openingSRoom.currentPlayer) = [] →
        calculateValidMoves (applyMove openingSRoom.board 2 4 openingSRoom.currentPlayer).1
          openingSRoom.currentPlayer ≠ [] →
        (serverMakeMove openingSRoom 1 2 4).1.currentPlayer =
            openingSRoom.currentPlayer ∧
          (serverMakeMove openingSRoom 1 2 4).1.gameOver = false) ∧
      (calculateValidMoves (applyMove openingSRoom.board 2 4 openingSRoom.currentPlayer).1
          (opp openingSRoom.currentPlayer) = [] →
        calculateValidMoves (applyMove openingSRoom.board 2 4 openingSRoom.currentPlayer).1
          openingSRoom.currentPlayer = [] →
        (serverMakeMove openingSRoom 1 2 4).1.gameOver = true)) :=
  ⟨rfl, rfl, rfl, by decide,
    C2_turn_resolution openingSRoom 1 2 4 rfl rfl rfl (by decide)⟩

/-! ## Claim C5 -/

/-- C5: on the canonical 4-disc opening (part_000 initializeBoard and the
part_001 constructor) the legal moves of black are exactly (2,3), (3,2),
(4,5), (5,4); black playing (2,3) flips exactly the one disc at (3,3),
after which the counts are black 4 and white 1. -/
theorem C5_opening_scenario :
    V1.getValidMoves initialBoard 1 =
      [((2 : Int), (3 : Int)), (3, 2), (4, 5), (5, 4)] ∧
    V1.flipPieces (setCell initialBoard 2 3 1) 2 3 1 = [((3 : Int), (3 : Int))] ∧
    V1.getScores (flipRun (setCell initialBoard 2 3 1) 1
      (V1.flipPieces (setCell initialBoard 2 3 1) 2 3 1)) = (4, 1) :=
  ⟨by decide, by decide, by decide⟩

/-! ## Claim C4 -/

/-- C4 (evaluation at the failing input): in the part_001 room where
the move of black at (0,0) captures every white disc, the match reaches the
game-over state, but the move pipeline calls endGame twice (once from
switchPlayer and once more from checkGameOver, which has no gameOver
guard), so the human player named An receives two rating-ledger updates
for the one concluded match instead of exactly one. -/
theorem C4_double_report :
    (V1.makeMove wipeARoom 0 0 10).1.gameOver = true ∧
    ((V1.makeMove wipeARoom 0 0 10).1.ledger.countP fun e =>
      match e with
      | .rating n _ => decide (n = "An")
      | _ => false) = 2 :=
  ⟨by decide, by decide⟩

/-! ## Claim C6 -/

/-- C6: every rejected move submission leaves the part_001 room completely
unchanged and returns the specific reason for the rejection: game not
running, submitter not on turn (or unknown), target cell occupied, or
target cell not a legal move. -/
theorem C6_rejections (room : V1.ARoom) (row col : Int) (pid : Nat) :
    ((room.gameOver = true ∨ room.gameStarted = false) →
      V1.makeMove room row col pid = (room, some "Game not active")) ∧
    (room.gameOver = false → room.gameStarted = true →
      (∀ pl ∈ room.players.find? (fun q => q.id = pid),
        pl.playerNumber ≠ room.currentPlayer) →
      V1.makeMove room row col pid = (room, some "Not your turn")) ∧
    (room.gameOver = false → room.gameStarted = true →
      (∃ pl ∈ room.players.find? (fun q => q.id = pid),
        pl.playerNumber = room.currentPlayer) →
      room.board row col ≠ 0 →
      V1.makeMove room row col pid = (room, some "Cell occupied")) ∧
    (room.gameOver = false → room.gameStarted = true →
      (∃ pl ∈ room.players.find? (fun q => q.id = pid),
        pl.playerNumber = room.currentPlayer) →
      room.board row col = 0 →
      (row, col) ∉ V1.getValidMoves room.board room.currentPlayer →
      V1.makeMove room row col pid = (room, some "Invalid move")) := by
  refine ⟨?_, ?_, ?_, ?_⟩
  · intro h
    have hc : room.gameOver = true ∨ ¬(room.gameStarted = true) := by
      rcases h with h | h
      · exact Or.inl h
      · exact Or.inr (by rw [h]; simp)
    simp only [V1.makeMove]
    rw [if_pos hc]
  · intro hov hst hall
    have hc : ¬(room.gameOver = true ∨ ¬(room.gameStarted = true)) := by
      rw [hov, hst]; simp
    simp only [V1.makeMove]
    rw [if_neg hc]
    rcases hfind : room.players.find? (fun q => q.id = pid) with _ | pl
    · rw [hfind]
    · rw [hfind]
      dsimp only
      have hne : pl.playerNumber ≠ room.currentPlayer :=
        hall pl (by rw [Option.mem_def, hfind])
      rw [if_pos hne]
  · intro hov hst hex hocc
    obtain ⟨pl, hmem, hnum⟩ := hex
    have hfind : room.players.find? (fun q => q.id = pid) = some pl :=
      Option.mem_def.mp hmem
    have hc : ¬(room.gameOver = true ∨ ¬(room.gameStarted = true)) := by
      rw [hov, hst]; simp
    simp only [V1.makeMove]
    rw [if_neg hc, hfind]
    dsimp only
    rw [if_neg (fun hh => hh hnum), if_pos hocc]
  · intro hov hst hex hempty hnotmem
    obtain ⟨pl, hmem, hnum⟩ := hex
    have hfind : room.players.find? (fun q => q.id = pid) = some pl :=
      Option.mem_def.mp hmem
    have hc : ¬(room.gameOver = true ∨ ¬(room.gameStarted = true)) := by
      rw [hov, hst]; simp
    simp only [V1.makeMove]
    rw [if_neg hc, hfind]
    dsimp only
    rw [if_neg (fun hh => hh hnum), if_neg (fun hh => hh hempty), if_pos hnotmem]

/-- Witness for C6 at a concrete input: the white player (id 11) submits a
move while it is the turn of black, and is rejected without any state change. -/
theorem C6_witness :
    wipeARoom.gameOver = false ∧ wipeARoom.gameStarted = true ∧
    (∀ pl ∈ wipeARoom.players.find? (fun q => q.id = 11),
      pl.playerNumber ≠ wipeARoom.currentPlayer) ∧
    V1.makeMove wipeARoom 0 0 11 = (wipeARoom, some "Not your turn") := by
  have hall : ∀ pl ∈ wipeARoom.players.find? (fun q => q.id = 11),
      pl.playerNumber ≠ wipeARoom.currentPlayer := by
    intro pl hpl
    rw [Option.mem_def] at hpl
    rw [(by decide : wipeARoom.players.find? (fun q => q.id = 11) =
      some ⟨11, "Binh", 2, true, false⟩)] at hpl
    have hv := Option.some.inj hpl
    rw [← hv]
    decide
  exact ⟨rfl, rfl, hall, (C6_rejections wipeARoom 0 0 11).2.1 rfl rfl hall⟩

/-! ## Claim C8 -/

/-- The selection fold of makeExpertMove, once the best so far is concrete,
is the foldBest recursion. -/
lemma foldl_step_eq_foldBest (b : Board) (p : Nat) :
    ∀ (l : List (Int × Int)) (m : Int × Int) (bs : Int),
      List.foldl
        (fun acc q =>
          match acc.2 with
          | none => (q, some (AI.expertScore b p q))
          | some v =>
            if v < AI.expertScore b p q then (q, some (AI.expertScore b p q)) else acc)
        (m, some bs) l =
      ((AI.foldBest (AI.expertScore b p) l m bs).1,
        some (AI.foldBest (AI.expertScore b p) l m bs).2) := by
  intro l
  induction l with
  | nil => intro m bs; rfl
  | cons a t ih =>
    intro m bs
    rw [List.foldl_cons]
    simp only [AI.foldBest]
    by_cases hc : bs < AI.expertScore b p a
    · simp only [if_pos hc]
      exact ih a (AI.expertScore b p a)
    · simp only [if_neg hc]
      exact ih m bs

lemma makeExpertMove_eq_foldBest (b : Board) (p : Nat) (x : Int × Int)
    (xs : List (Int × Int)) :
    AI.makeExpertMove b (x :: xs) p =
      (AI.foldBest (AI.expertScore b p) xs x (AI.expertScore b p x)).1 := by
  simp only [AI.makeExpertMove, List.foldl_cons, List.headD]
  rw [foldl_step_eq_foldBest]

/-- The strict-improvement fold keeps the first element attaining the
maximal score. -/
lemma foldBest_first_argmax (score : (Int × Int) → Int) :
    ∀ (l : List (Int × Int)) (m : Int × Int),
      AI.IsFirstArgmax score (m :: l) (AI.foldBest score l m (score m)).1 := by
  intro l
  induction l with
  | nil =>
    intro m
    exact ⟨[], [], rfl, by simp, by simp⟩
  | cons a t ih =>
    intro m
    simp only [AI.foldBest]
    by_cases hc : score m < score a
    · rw [if_pos hc]
      obtain ⟨l1, l2, hsplit, hl1, hl2⟩ := ih a
      have haR : score a ≤ score (AI.foldBest score t a (score a)).1 := by
        have hmem : a ∈ l1 ++ (AI.foldBest score t a (score a)).1 :: l2 := by
          rw [← hsplit]; exact List.mem_cons_self a t
        rcases List.mem_append.mp hmem with h | h
        · exact le_of_lt (hl1 a h)
        · rcases List.mem_cons.mp h with h | h
          · exact le_of_eq (congrArg score h)
          · exact hl2 a h
      refine ⟨m :: l1, l2, ?_, ?_, hl2⟩
      · rw [List.cons_append, hsplit]
      · intro x hx
        rcases List.mem_cons.mp hx with rfl | hx2
        · exact lt_of_lt_of_le hc haR
        · exact hl1 x hx2
    · rw [if_neg hc]
      obtain ⟨l1, l2, hsplit, hl1, hl2⟩ := ih m
      cases l1 with
      | nil =>
        simp only [List.nil_append] at hsplit
        have hR : (AI.foldBest score t m (score m)).1 = m :=
          (List.cons.inj hsplit).1.symm
        have hT : l2 = t := (List.cons.inj hsplit).2.symm
        refine ⟨[], a :: l2, ?_, by simp, ?_⟩
        · simp only [List.nil_append]
          rw [hR, hT]
        · intro x hx
          rcases List.mem_cons.mp hx with rfl | hx2
          · rw [hR]; exact le_of_not_lt hc
          · exact hl2 x hx2
      | cons z l1' =>
        simp only [List.cons_append] at hsplit
        have hzm : z = m := (List.cons.inj hsplit).1.symm
        have hT : t = l1' ++ (AI.foldBest score t m (score m)).1 :: l2 :=
          (List.cons.inj hsplit).2
        have hmR : score m < score (AI.foldBest score t m (score m)).1 := by
          apply hl1
          rw [hzm]
          exact List.mem_cons_self m l1'
        refine ⟨m :: a :: l1', l2, ?_, ?_, hl2⟩
        · simp only [List.cons_append]
          exact congrArg (fun l => m :: a :: l) hT
        · intro x hx
          rcases List.mem_cons.mp hx with rfl | hx2
          · exact hmR
          · rcases List.mem_cons.mp hx2 with rfl | hx3
            · exact lt_of_le_of_lt (le_of_not_lt hc) hmR
            · exact hl1 x (List.mem_cons_of_mem z hx3)

/-- C8 counterexample: on aiBoard the legal moves of black are (0,1) and
(5,5); the code selects (5,5), although under the scoring of the claim (which
penalises only cells adjacent to an EMPTY corner, and corner (0,0) is
occupied here) the candidate (0,1) scores strictly higher, so the chosen
move does not maximise the weighted sum of the claim. -/
theorem C8_counterexample :
    V1.getValidMoves aiBoard 1 = [((0 : Int), (1 : Int)), (5, 5)] ∧
    AI.makeExpertMove aiBoard (V1.getValidMoves aiBoard 1) 1 = (5, 5) ∧
    AI.claimExpertScore aiBoard 1 (5, 5) < AI.claimExpertScore aiBoard 1 (0, 1) :=
  ⟨by decide, by decide, by decide⟩

/-- C8 (amended): for every non-empty candidate list, the hard-difficulty
automated opponent selects the first-seen candidate maximising the fixed
weighted sum expertScore of the code (corner bonus 100; edge bonus 20 when not
next to a corner; penalty 50 for any cell next to a corner, occupied or
not; twice the immediate flip count; minus the opposing legal-move count
after placing the disc). -/
theorem C8_expert_argmax (b : Board) (p : Nat) (moves : List (Int × Int))
    (hne : moves ≠ []) :
    AI.IsFirstArgmax (AI.expertScore b p) moves (AI.makeExpertMove b moves p) := by
  match moves, hne with
  | x :: xs, _ =>
    rw [makeExpertMove_eq_foldBest]
    exact foldBest_first_argmax (AI.expertScore b p) xs x

/-- Witness for the amended C8 at a concrete input. -/
theorem C8_witness :
    V1.getValidMoves aiBoard 1 ≠ [] ∧
    AI.IsFirstArgmax (AI.expertScore aiBoard 1) (V1.getValidMoves aiBoard 1)
      (AI.makeExpertMove aiBoard (V1.getValidMoves aiBoard 1) 1) :=
  ⟨by decide, C8_expert_argmax aiBoard 1 (V1.getValidMoves aiBoard 1) (by decide)⟩

/-! ## Claim C9 -/

lemma endGame_moveHistory (room : V1.ARoom) :
    (V1.endGame room).moveHistory = room.moveHistory := rfl

lemma switchPlayer_moveHistory (room : V1.ARoom) :
    (V1.switchPlayer room).moveHistory = room.moveHistory := by
  simp only [V1.switchPlayer]
  by_cases h1 : V1.getValidMoves room.board (opp room.currentPlayer) ≠ []
  · rw [if_pos h1]
  · rw [if_neg h1]
    by_cases h2 : V1.getValidMoves room.board room.currentPlayer = []
    · rw [if_pos h2]
      exact endGame_moveHistory room
    · rw [if_neg h2]

lemma checkGameOver_moveHistory (room : V1.ARoom) :
    (V1.checkGameOver room).moveHistory = room.moveHistory := by
  simp only [V1.checkGameOver]
  by_cases h1 : (V1.getScores room.board).1 + (V1.getScores room.board).2 = 64
  · rw [if_pos h1]
    exact endGame_moveHistory room
  · rw [if_neg h1]
    by_cases h2 : V1.getValidMoves room.board 1 = [] ∧ V1.getValidMoves room.board 2 = []
    · rw [if_pos h2]
      exact endGame_moveHistory room
    · rw [if_neg h2]

/-- C9 counterexample: the move-history append is a plain push enforcing no
cap at all; no bound of at most 60 entries (a full game records 60 moves,
so larger caps can never take effect) holds of the stored history, and the
oldest entry is never dropped. -/
theorem C9_counterexample :
    ¬ ∃ N : Nat, N ≤ 60 ∧
      ∀ (h : List V1.AMoveRec) (e : V1.AMoveRec),
        (V1.pushMoveHistory h e).length ≤ N := by
  rintro ⟨N, hN, hall⟩
  have h := hall (List.replicate N exRec) exRec
  simp [V1.pushMoveHistory] at h

/-- C9 (amended): an accepted move appends exactly one record to the move
history and never drops any stored entry; the history length is bounded
only implicitly by the number of moves a game can contain, not by a cap
enforced at the append. -/
theorem C9_history_plain_append (room : V1.ARoom) (row col : Int) (pid : Nat)
    (haccept : (V1.makeMove room row col pid).2 = none) :
    (V1.makeMove room row col pid).1.moveHistory =
      room.moveHistory ++
        [⟨room.currentPlayer, row, col,
          V1.flipPieces (setCell room.board row col room.currentPlayer) row col
            room.currentPlayer⟩] := by
  unfold V1.makeMove at haccept ⊢
  by_cases h1 : room.gameOver = true ∨ ¬(room.gameStarted = true)
  · rw [if_pos h1] at haccept; simp at haccept
  · rw [if_neg h1] at haccept ⊢
    rcases hfind : room.players.find? (fun q => q.id = pid) with _ | pl
    · rw [hfind] at haccept; simp at haccept
    · rw [hfind] at haccept ⊢
      dsimp only at haccept ⊢
      by_cases h2 : pl.playerNumber ≠ room.currentPlayer
      · rw [if_pos h2] at haccept; simp at haccept
      · rw [if_neg h2] at haccept ⊢
        by_cases h3 : room.board row col ≠ 0
        · rw [if_pos h3] at haccept; simp at haccept
        · rw [if_neg h3] at haccept ⊢
          by_cases h4 : (row, col) ∉ V1.getValidMoves room.board room.currentPlayer
          · rw [if_pos h4] at haccept; simp at haccept
          · rw [if_neg h4]
            rw [checkGameOver_moveHistory, switchPlayer_moveHistory]
            rfl

/-- Witness for the amended C9 at a concrete input. -/
theorem C9_witness :
    (V1.makeMove wipeARoom 0 0 10).2 = none ∧
    (V1.makeMove wipeARoom 0 0 10).1.moveHistory =
      wipeARoom.moveHistory ++
        [⟨wipeARoom.currentPlayer, 0, 0,
          V1.flipPieces (setCell wipeARoom.board 0 0 wipeARoom.currentPlayer) 0 0
            wipeARoom.currentPlayer⟩] :=
  ⟨by decide, C9_history_plain_append wipeARoom 0 0 10 (by decide)⟩

/-! ## Claim C10 -/

/-- C10: from the fresh part_000 leaderboard record, the rating stays at or
above the floor 100 after every sequence of recorded outcomes: the record
starts above the floor, every win strictly raises the rating, and the
decrease on a loss is clamped at the floor. -/
theorem C10_rating_floor (results : List V1.GRes) :
    100 ≤ (results.foldl updateLeaderboardRating freshRating).rating ∧
    100 < freshRating.rating ∧
    (∀ e : RatingEntry, e.rating < (updateLeaderboardRating e .win).rating) ∧
    (∀ e : RatingEntry, 100 ≤ (updateLeaderboardRating e .loss).rating) := by
  refine ⟨?_, by decide, ?_, ?_⟩
  · have inv : ∀ (l : List V1.GRes) (e : RatingEntry), 100 ≤ e.rating →
        100 ≤ (l.foldl updateLeaderboardRating e).rating := by
      intro l
      induction l with
      | nil => intro e he; simpa using he
      | cons r t ih =>
        intro e he
        rw [List.foldl_cons]
        apply ih
        cases r with
        | win => simp only [updateLeaderboardRating]; omega
        | loss => simp only [updateLeaderboardRating]; exact le_max_left _ _
        | draw => simpa using he
    exact inv results freshRating (by decide)
  · intro e
    simp only [updateLeaderboardRating]
    omega
  · intro e
    simp only [updateLeaderboardRating]
    exact le_max_left _ _

end Othello

